import Mathlib

set_option maxRecDepth 4000

/-!
# Verification of the Nanci chunked record reformatter

Shallow embedding of the block-based text reformatter of
`Nanci_reformat_example(xyz).py` (`process_file`, `make_output_name`,
`process_directory`, `METADATA_INDICES`) and of the crude `reformat`
function of `Nanci_reformat&ingest_example(xyz).py`.

Modelling conventions:
* A text stream is a `List Line`, one entry per physical line, where a
  `Line` is the list of the line's characters without its trailing
  newline.  End of stream is the end of the list, matching `readline`
  returning the empty string exactly at end of file.  Input files are
  assumed newline terminated (the reformatter's `rstrip('\n')` /
  `write(al + '\n')` normalisation makes the final-newline distinction
  unobservable for the main routine in any case).
* Python strings are `List Char`.  Only ASCII data appears in these
  files, so Python's unicode digit/whitespace generality is modelled by
  its ASCII fragment.
* Python exceptions caught by the scripts are modelled by the branch
  structure of the translated functions; I/O failures are modelled as
  `Except` values (see `process_file_run`).
-/

abbrev Line := List Char

/-- ASCII whitespace as recognised by Python's `str.strip()` and
`str.split()`: space, tab, newline, carriage return, vertical tab
(11), form feed (12). -/
def isPyWs (c : Char) : Bool :=
  c == ' ' || c == '\t' || c == '\n' || c == '\r' ||
    c == Char.ofNat 11 || c == Char.ofNat 12

/-- Python `str.strip()` (no argument): remove leading and trailing
whitespace. -/
def pyStrip (l : Line) : Line :=
  ((l.dropWhile isPyWs).reverse.dropWhile isPyWs).reverse

/-- Helper for `pySplitWs`: `acc` holds the characters of the token
currently being read, in reverse order. -/
def pySplitWsAux : Line → Line → List Line
  | acc, [] => if acc = [] then [] else [acc.reverse]
  | acc, c :: cs =>
    if isPyWs c then
      if acc = [] then pySplitWsAux [] cs else acc.reverse :: pySplitWsAux [] cs
    else pySplitWsAux (c :: acc) cs

/-- Python `str.split()` with no separator: split on runs of whitespace,
never yielding empty tokens. -/
def pySplitWs (l : Line) : List Line := pySplitWsAux [] l

/-- Python `str.split(sep)` for a one-character separator: split at every
occurrence of `sep`, keeping empty fields; splitting the empty string
yields one empty field (matching Python:
`pySplitChar sep [] = [[]]`). -/
def pySplitChar (sep : Char) : Line → List Line
  | [] => [[]]
  | c :: cs =>
    match pySplitChar sep cs with
    | [] => [[]]
    | s :: rest => if c = sep then [] :: s :: rest else (c :: s) :: rest

/-- Python `sep.join` for a one-character separator string. -/
def joinChar (sep : Char) : List Line → Line
  | [] => []
  | [x] => x
  | x :: y :: xs => x ++ sep :: joinChar sep (y :: xs)

/-- Python `'.'.join`. -/
def joinDot : List Line → Line := joinChar '.'

/-- Python `' '.join`. -/
def joinSp : List Line → Line := joinChar ' '

/-- Digit-string parser underlying Python `int(str)`: one or more ASCII
decimal digits, with single underscores allowed between digits
(PEP 515); underscores may not lead, trail, or repeat. -/
def pyDigitsAux : Nat → List Char → Option Nat
  | acc, [] => some acc
  | acc, c :: cs =>
    if c.isDigit then pyDigitsAux (10 * acc + (c.toNat - 48)) cs
    else if c = '_' then
      match cs with
      | [] => none
      | d :: cs2 =>
        if d.isDigit then pyDigitsAux (10 * acc + (d.toNat - 48)) cs2 else none
    else none

/-- Nonempty digit string (first character must be a digit). -/
def pyDigitStr : List Char → Option Nat
  | [] => none
  | c :: cs => if c.isDigit then pyDigitsAux (c.toNat - 48) cs else none

/-- Python `int(s)` for ASCII decimal input: strip whitespace, optional
single `+`/`-` sign, then a digit string.  Returns `none` exactly when
Python raises `ValueError`. -/
def pyIntParse (l : Line) : Option Int :=
  match pyStrip l with
  | '+' :: rest => (pyDigitStr rest).map (fun m => (m : Int))
  | '-' :: rest => (pyDigitStr rest).map (fun m => -(m : Int))
  | t => (pyDigitStr t).map (fun m => (m : Int))

/-- Decimal digits of a natural number (fuel-structured so that it
reduces in the kernel); `natDigits 0 = ['0']`. -/
def natDigitsAux : Nat → Nat → List Char → List Char
  | 0, _, acc => acc
  | fuel + 1, n, acc =>
    if n < 10 then Char.ofNat (48 + n) :: acc
    else natDigitsAux fuel (n / 10) (Char.ofNat (48 + n % 10) :: acc)

def natDigits (n : Nat) : List Char := natDigitsAux (n + 1) n []

/-- Python `str(n)` for an `int` value `n` (as written by
`fout.write(f"{n_atoms}\n")` and `nf.write('%s\n' % n)`). -/
def intToLine (n : Int) : Line :=
  if n < 0 then '-' :: natDigits (-n).toNat else natDigits n.toNat

/-- The fixed list of metadata token indices of the reformatter
(`METADATA_INDICES = [16, 18, 20, 22, 24, 26, 28, 30, 32, 34]`). -/
def METADATA_INDICES : List Nat := [16, 18, 20, 22, 24, 26, 28, 30, 32, 34]

/-- Python `max` over the (nonempty) configured index list.  `foldr max 0`
agrees with Python's `max` on every nonempty list of naturals;
`METADATA_INDICES` is nonempty. -/
def maxIdx (l : List Nat) : Nat := l.foldr max 0

/-- The header template of `process_file`
(`"CCSD(T)/CBS={0} ... Properties=species:S:1:pos:R:3".format(*meta_values)`),
applied to the list of extracted metadata values. -/
def headerFromValues (mv : List Line) : Line :=
  "CCSD(T)/CBS=".toList ++ mv.getD 0 [] ++
  " CCSD(T)/haTZ=".toList ++ mv.getD 1 [] ++
  " MP2/haTZ=".toList ++ mv.getD 2 [] ++
  " MP2/CBS=".toList ++ mv.getD 3 [] ++
  " MP2/aTZ=".toList ++ mv.getD 4 [] ++
  " MP2/aQZ=".toList ++ mv.getD 5 [] ++
  " HF/haTZ=".toList ++ mv.getD 6 [] ++
  " HF/aTZ=".toList ++ mv.getD 7 [] ++
  " HF/aQZ=".toList ++ mv.getD 8 [] ++
  " SAPT2+/aDZTot=".toList ++ mv.getD 9 [] ++
  " Properties=species:S:1:pos:R:3".toList

/-- The fallback header of `process_file`
(`" ".join(["meta:"+v for v in meta_values]) + " Properties=..."`). -/
def fallbackHeader (mv : List Line) : Line :=
  joinSp (mv.map (fun v => "meta:".toList ++ v)) ++
    " Properties=species:S:1:pos:R:3".toList

/-- Header synthesis of `process_file`: `str.format` with placeholders
`{0}`..`{9}` succeeds exactly when at least 10 values are supplied;
otherwise the `except` branch builds the fallback header. -/
def mkHeader (mv : List Line) : Line :=
  if 10 ≤ mv.length then headerFromValues mv else fallbackHeader mv

/-- Warnings logged by the block loop of `process_file`. -/
inductive Warn where
  | badCount (s : Line)      -- non-integer count line, scanning continues
  | eofMeta                  -- EOF when reading the metadata line
  | shortMeta (tokens : Nat) -- metadata token shortage, block skipped
  | eofAtoms                 -- EOF while reading atom lines
deriving DecidableEq

/-- Result of the block loop of `process_file`: the lines written to the
output file (each written with a trailing newline), the number of blocks
written (`block_count`), and the warnings logged, in order. -/
structure PResult where
  out : List Line
  blocks : Nat
  warns : List Warn
deriving DecidableEq

/-- The block loop of `process_file`, fuel-structured (any
`fuel ≥ length of the input` gives the same result, see
`processLinesF_congr`).  Each branch mirrors one path of the source's
`while True` loop. -/
def processLinesF (idx : List Nat) : Nat → List Line → PResult
  | 0, _ => ⟨[], 0, []⟩
  | _ + 1, [] => ⟨[], 0, []⟩                 -- `if not first: break`
  | fuel + 1, first :: rest =>
    if pyStrip first = [] then processLinesF idx fuel rest  -- skip empty lines
    else
      match pyIntParse (pyStrip first) with
      | none =>                                -- ValueError: warn, continue
        ⟨(processLinesF idx fuel rest).out,
         (processLinesF idx fuel rest).blocks,
         Warn.badCount (pyStrip first) :: (processLinesF idx fuel rest).warns⟩
      | some n =>
        match rest with
        | [] => ⟨[], 0, [Warn.eofMeta]⟩        -- EOF at metadata: break
        | meta :: rest2 =>
          -- `max(METADATA_INDICES) >= len(meta_tokens)`: skip the block
          if (pySplitWs (pyStrip meta)).length ≤ maxIdx idx then
            ⟨(processLinesF idx fuel (rest2.drop n.toNat)).out,
             (processLinesF idx fuel (rest2.drop n.toNat)).blocks,
             Warn.shortMeta (pySplitWs (pyStrip meta)).length ::
               (processLinesF idx fuel (rest2.drop n.toNat)).warns⟩
          else if rest2.length < n.toNat then  -- EOF in atom lines: break
            ⟨[], 0, [Warn.eofAtoms]⟩
          else
            ⟨intToLine n ::
               mkHeader (idx.map (fun i => (pySplitWs (pyStrip meta)).getD i [])) ::
               (rest2.take n.toNat ++ (processLinesF idx fuel (rest2.drop n.toNat)).out),
             (processLinesF idx fuel (rest2.drop n.toNat)).blocks + 1,
             (processLinesF idx fuel (rest2.drop n.toNat)).warns⟩

/-- The block loop of `process_file` on the lines of the input file,
parameterised by the configured index list (the source reads the module
constant `METADATA_INDICES`; the inline comments describe it as the
adjustable configuration). -/
def process_file (idx : List Nat) (l : List Line) : PResult :=
  processLinesF idx l.length l

/-- File content written for an output line list: every line is written
with a trailing newline terminator. -/
def contentOf (r : PResult) : List Char :=
  (r.out.map (fun a => a ++ ['\n'])).flatten

/-- CPython `PurePath` split of a file name at its last dot:
`some (a, b)` means `name = a ++ '.' :: b` with no dot in `b`;
`none` means the name has no dot. -/
def splitLastDot : Line → Option (Line × Line)
  | [] => none
  | c :: cs =>
    match splitLastDot cs with
    | some (a, b) => some (c :: a, b)
    | none => if c = '.' then some ([], cs) else none

/-- CPython `PurePath.suffix`: `name[i:]` for `i = name.rfind('.')` when
`0 < i < len(name) - 1`, else the empty string. -/
def pySuffix (name : Line) : Line :=
  match splitLastDot name with
  | some (a, b) => if a ≠ [] ∧ b ≠ [] then '.' :: b else []
  | none => []

/-- CPython `PurePath.stem`: the name up to its suffix. -/
def pyStem (name : Line) : Line :=
  match splitLastDot name with
  | some (a, b) => if a ≠ [] ∧ b ≠ [] then a else name
  | none => name

/-- `make_output_name` of the reformatter, acting on the file name (the
path's final component; `with_name` keeps the directory).  `parts[-2]`
and `parts[-1]` are read off the reversed part list, matching Python's
negative indexing. -/
def make_output_name (name : Line) : Line :=
  if 3 ≤ (pySplitChar '.' name).length then
    -- f"{'.'.join(parts[:-2])}.{parts[-2]}_reformat.{parts[-1]}"
    -- (parts[-2] and parts[-1] read off the reversed part list,
    -- matching Python's negative indexing)
    joinDot ((pySplitChar '.' name).dropLast.dropLast) ++
      '.' :: ((pySplitChar '.' name).reverse.getD 1 [] ++
        "_reformat.".toList ++ (pySplitChar '.' name).reverse.getD 0 [])
  else
    -- f"{in_path.stem}_reformat{in_path.suffix}"
    pyStem name ++ "_reformat".toList ++ pySuffix name

/-- Output name built by the crude `reformat`
(`a = file_address.split('.'); b = a[0] + '.' + a[1] + '_reformat.' + a[2]`).
Indexing raises for names with fewer than three dot-parts; `getD` is
exact on the hypothesis (three or more parts) under which the function
is invoked below. -/
def crudeOutName (name : Line) : Line :=
  let a := pySplitChar '.' name
  a.getD 0 [] ++ '.' :: (a.getD 1 [] ++ "_reformat.".toList ++ a.getD 2 [])

/-- The header template of the crude `reformat`
(`'CCSD(T)/CBS=%s ... Properties=species:S:1:pos:R:3' % (data[16], ..., data[34])`). -/
def crudeHeader (data : List Line) : Line :=
  "CCSD(T)/CBS=".toList ++ data.getD 16 [] ++
  " CCSD(T)/haTZ=".toList ++ data.getD 18 [] ++
  " MP2/haTZ=".toList ++ data.getD 20 [] ++
  " MP2/CBS=".toList ++ data.getD 22 [] ++
  " MP2/aTZ=".toList ++ data.getD 24 [] ++
  " MP2/aQZ=".toList ++ data.getD 26 [] ++
  " HF/haTZ=".toList ++ data.getD 28 [] ++
  " HF/aTZ=".toList ++ data.getD 30 [] ++
  " HF/aQZ=".toList ++ data.getD 32 [] ++
  " SAPT2+/aDZTot=".toList ++ data.getD 34 [] ++
  " Properties=species:S:1:pos:R:3".toList

/-- The block loop of the crude `reformat`, emitting raw file content,
fuel-structured like `processLinesF`.  `readline` results carry their
trailing newline (`m ++ ['\n']`); at end of file `readline` returns the
empty string, so `int` fails and the loop stops.  A metadata line with
too few tokens raises `IndexError` while building the header tuple,
after the count line has already been written, and stops the loop. -/
def crudeMetaRaw : List Line → Line
  | [] => []            -- readline at EOF: ''
  | m :: _ => m ++ ['\n']

def crudeF : Nat → List Line → List Char
  | 0, _ => []
  | _ + 1, [] => []                        -- int('') raises: stop
  | fuel + 1, first :: rest =>
    match pyIntParse (first ++ ['\n']) with
    | none => []                           -- int raises: stop
    | some n =>
      intToLine n ++ ['\n'] ++             -- nf.write('%s\n' % n)
        (if 35 ≤ (pySplitChar ' ' (crudeMetaRaw rest)).length then
          crudeHeader (pySplitChar ' ' (crudeMetaRaw rest)) ++ ['\n'] ++
            ((rest.tail.take n.toNat).map (fun a => a ++ ['\n'])).flatten ++
            crudeF fuel (rest.tail.drop n.toNat)
        else [])                           -- IndexError after the count line

/-- Content written by the crude `reformat` for an input file. -/
def crudeContent (l : List Line) : List Char := crudeF l.length l

/-- Content written by `process_file` with the shipped
`METADATA_INDICES`. -/
def procContent (l : List Line) : List Char :=
  contentOf (process_file METADATA_INDICES l)

/-- A record block of the input format: count line, metadata line, atom
lines. -/
structure Block where
  countLine : Line
  metaLine : Line
  atoms : List Line
deriving DecidableEq

/-- The lines a block occupies in the input stream. -/
def encodeBlock (b : Block) : List Line := b.countLine :: b.metaLine :: b.atoms

def encodeBlocks (bs : List Block) : List Line := (bs.map encodeBlock).flatten

/-- Well-formedness of a block with respect to a configured index list:
a non-blank count line that parses to the exact number of atom lines,
and a metadata line with enough whitespace-separated tokens. -/
def wfBlock (idx : List Nat) (b : Block) : Prop :=
  pyStrip b.countLine ≠ [] ∧
  pyIntParse (pyStrip b.countLine) = some (b.atoms.length : Int) ∧
  maxIdx idx < (pySplitWs (pyStrip b.metaLine)).length

instance (idx : List Nat) (b : Block) : Decidable (wfBlock idx b) := by
  unfold wfBlock; infer_instance

/-- Output lines that `process_file` emits for one well-formed block. -/
def blockOut (idx : List Nat) (b : Block) : List Line :=
  intToLine (b.atoms.length : Int) ::
    mkHeader (idx.map (fun i => (pySplitWs (pyStrip b.metaLine)).getD i [])) ::
    b.atoms

def emitOut (idx : List Nat) (bs : List Block) : List Line :=
  (bs.map (blockOut idx)).flatten

/-- One directory entry as seen by `process_directory`: final name
component, regular-file flag, and the outcome of opening and reading it
(`Except.error` models an `OSError`-style exception raised by the I/O
of that file, carrying the logged message).  Entries are listed in the
sorted order Python iterates. -/
structure DirEntry where
  name : Line
  isFile : Bool
  content : Except Line (List Line)

/-- Result of one `process_file` call: either the fatal branch (the
outer `except Exception` logs the failure and returns) or normal
completion with the loop's result. -/
inductive FileResult where
  | fatal (msg : Line)
  | done (r : PResult)
deriving DecidableEq

/-- `process_file` including its outer try/except: any exception raised
while opening or reading the file is caught and logged, and the call
returns normally in every case (Python `BaseException`s such as
`KeyboardInterrupt` are outside the model). -/
def process_file_run (idx : List Nat) (content : Except Line (List Line)) :
    FileResult :=
  match content with
  | .error m => FileResult.fatal m
  | .ok lines => FileResult.done (process_file idx lines)

/-- Python `p in s` substring test. -/
def isSubstring (p : Line) : Line → Bool
  | [] => p.isEmpty
  | l@(_ :: t) => p.isPrefixOf l || isSubstring p t

/-- Filename filter of `process_directory`: with a nonempty pattern
list, keep names that end with or contain one of the patterns; with
`None` or an empty list `if patterns:` is falsy and every file
passes. -/
def passesFilter (patterns : List Line) (fname : Line) : Bool :=
  patterns.isEmpty ||
    patterns.any (fun p => p.isSuffixOf fname || isSubstring p fname)

/-- Whether `process_directory` processes a directory entry: regular
files other than the script itself that pass the filter. -/
def shouldProcess (script : Line) (patterns : List Line) (e : DirEntry) : Bool :=
  e.isFile && !(e.name == script) && passesFilter patterns e.name

/-- `process_directory`: one `process_file` call per selected entry, in
order; `none` records an entry that was skipped rather than
processed. -/
def process_directory (idx : List Nat) (script : Line) (patterns : List Line)
    (entries : List DirEntry) : List (Option FileResult) :=
  entries.map (fun e =>
    if shouldProcess script patterns e then
      some (process_file_run idx e.content)
    else none)

/-- A metadata line with 35 single-space-separated tokens `0` .. `34`
(the minimum accepted by the shipped `METADATA_INDICES`, whose maximum
index is 34). -/
def meta35 : Line :=
  "0 1 2 3 4 5 6 7 8 9 10 11 12 13 14 15 16 17 18 19 20 21 22 23 24 25 26 27 28 29 30 31 32 33 34".toList

/-- The header `process_file` synthesises for a block whose metadata
line is `meta35`. -/
def header35 : Line :=
  "CCSD(T)/CBS=16 CCSD(T)/haTZ=18 MP2/haTZ=20 MP2/CBS=22 MP2/aTZ=24 MP2/aQZ=26 HF/haTZ=28 HF/aTZ=30 HF/aQZ=32 SAPT2+/aDZTot=34 Properties=species:S:1:pos:R:3".toList

/-- A concrete well-formed one-atom block used by witnesses. -/
def blockW : Block := ⟨"1".toList, meta35, ["C 0 0 0".toList]⟩

/-- Preconditions of the refinement claim (C10) for a single block: a
non-blank count line parsing to the exact number of atom lines, and a
metadata line of at least 36 tokens separated by single spaces, each
token nonempty and whitespace-free (`pySplitChar ' '` recovers exactly
the tokens of such a line, every line being the single-space join of
its tokens). -/
def wf10 (b : Block) : Prop :=
  pyStrip b.countLine ≠ [] ∧
  pyIntParse (pyStrip b.countLine) = some (b.atoms.length : Int) ∧
  36 ≤ (pySplitChar ' ' b.metaLine).length ∧
  ∀ t ∈ pySplitChar ' ' b.metaLine, t ≠ [] ∧ ∀ c ∈ t, isPyWs c = false

instance (b : Block) : Decidable (wf10 b) := by
  unfold wf10; infer_instance

/-- A metadata line with 36 single-space-separated tokens `0` .. `35`
(one more than `meta35`, satisfying the stricter refinement
precondition). -/
def meta36 : Line :=
  "0 1 2 3 4 5 6 7 8 9 10 11 12 13 14 15 16 17 18 19 20 21 22 23 24 25 26 27 28 29 30 31 32 33 34 35".toList

/-- A concrete block satisfying `wf10`, used by the refinement
witness. -/
def blockV : Block := ⟨"1".toList, meta36, ["C 0 0 0".toList]⟩

/-! ## Fuel irrelevance and step equations for the block loop -/

theorem processLinesF_congr (idx : List Nat) :
    ∀ (fuel fuel' : Nat) (l : List Line), l.length ≤ fuel → l.length ≤ fuel' →
      processLinesF idx fuel l = processLinesF idx fuel' l := by
  intro fuel
  induction fuel with
  | zero =>
    intro fuel' l h _
    have hl : l = [] := List.length_eq_zero.mp (Nat.le_zero.mp h)
    subst hl
    cases fuel' <;> rfl
  | succ f ih =>
    intro fuel' l h h'
    cases l with
    | nil => cases fuel' <;> rfl
    | cons first rest =>
      cases fuel' with
      | zero => simp at h'
      | succ f' =>
        have hr : rest.length ≤ f := by simpa using h
        have hr' : rest.length ≤ f' := by simpa using h'
        simp only [processLinesF]
        by_cases hs : pyStrip first = []
        · simp only [hs, if_pos]
          exact ih f' rest hr hr'
        · simp only [if_neg hs]
          cases hp : pyIntParse (pyStrip first) with
          | none => rw [ih f' rest hr hr']
          | some n =>
            cases rest with
            | nil => rfl
            | cons meta rest2 =>
              have hd : (rest2.drop n.toNat).length ≤ f := by
                simp only [List.length_drop]
                simp only [List.length_cons] at hr
                omega
              have hd' : (rest2.drop n.toNat).length ≤ f' := by
                simp only [List.length_drop]
                simp only [List.length_cons] at hr'
                omega
              by_cases htok : (pySplitWs (pyStrip meta)).length ≤ maxIdx idx
              · simp only [if_pos htok]
                rw [ih f' (rest2.drop n.toNat) hd hd']
              · simp only [if_neg htok]
                by_cases hlen : rest2.length < n.toNat
                · simp only [if_pos hlen]
                · simp only [if_neg hlen]
                  rw [ih f' (rest2.drop n.toNat) hd hd']

theorem process_file_nil (idx : List Nat) : process_file idx [] = ⟨[], 0, []⟩ :=
  rfl

theorem process_file_blank (idx : List Nat) (first : Line) (rest : List Line)
    (hs : pyStrip first = []) :
    process_file idx (first :: rest) = process_file idx rest := by
  show processLinesF idx (rest.length + 1) (first :: rest) = _
  simp only [processLinesF, hs, if_pos]
  rfl

theorem process_file_badCount (idx : List Nat) (first : Line) (rest : List Line)
    (hs : pyStrip first ≠ []) (hp : pyIntParse (pyStrip first) = none) :
    process_file idx (first :: rest) =
      ⟨(process_file idx rest).out, (process_file idx rest).blocks,
       Warn.badCount (pyStrip first) :: (process_file idx rest).warns⟩ := by
  show processLinesF idx (rest.length + 1) (first :: rest) = _
  simp only [processLinesF, hp, if_neg hs]
  rfl

theorem process_file_eofMeta (idx : List Nat) (first : Line) (n : Int)
    (hs : pyStrip first ≠ []) (hp : pyIntParse (pyStrip first) = some n) :
    process_file idx [first] = ⟨[], 0, [Warn.eofMeta]⟩ := by
  show processLinesF idx 1 [first] = _
  simp only [processLinesF, hp, if_neg hs]

theorem process_file_shortMeta (idx : List Nat) (first meta : Line)
    (rest2 : List Line) (n : Int)
    (hs : pyStrip first ≠ []) (hp : pyIntParse (pyStrip first) = some n)
    (htok : (pySplitWs (pyStrip meta)).length ≤ maxIdx idx) :
    process_file idx (first :: meta :: rest2) =
      ⟨(process_file idx (rest2.drop n.toNat)).out,
       (process_file idx (rest2.drop n.toNat)).blocks,
       Warn.shortMeta (pySplitWs (pyStrip meta)).length ::
         (process_file idx (rest2.drop n.toNat)).warns⟩ := by
  show processLinesF idx (rest2.length + 1 + 1) (first :: meta :: rest2) = _
  simp only [processLinesF, hp, if_neg hs, if_pos htok]
  rw [processLinesF_congr idx (rest2.length + 1) (rest2.drop n.toNat).length
        (rest2.drop n.toNat) (by simp only [List.length_drop]; omega) le_rfl]
  rfl

theorem process_file_eofAtoms (idx : List Nat) (first meta : Line)
    (rest2 : List Line) (n : Int)
    (hs : pyStrip first ≠ []) (hp : pyIntParse (pyStrip first) = some n)
    (htok : maxIdx idx < (pySplitWs (pyStrip meta)).length)
    (hlen : rest2.length < n.toNat) :
    process_file idx (first :: meta :: rest2) = ⟨[], 0, [Warn.eofAtoms]⟩ := by
  show processLinesF idx (rest2.length + 1 + 1) (first :: meta :: rest2) = _
  simp only [processLinesF, hp, if_neg hs, if_neg (not_le.mpr htok),
    if_pos hlen]

theorem process_file_emit (idx : List Nat) (first meta : Line)
    (rest2 : List Line) (n : Int)
    (hs : pyStrip first ≠ []) (hp : pyIntParse (pyStrip first) = some n)
    (htok : maxIdx idx < (pySplitWs (pyStrip meta)).length)
    (hlen : n.toNat ≤ rest2.length) :
    process_file idx (first :: meta :: rest2) =
      ⟨intToLine n ::
         mkHeader (idx.map (fun i => (pySplitWs (pyStrip meta)).getD i [])) ::
         (rest2.take n.toNat ++ (process_file idx (rest2.drop n.toNat)).out),
       (process_file idx (rest2.drop n.toNat)).blocks + 1,
       (process_file idx (rest2.drop n.toNat)).warns⟩ := by
  show processLinesF idx (rest2.length + 1 + 1) (first :: meta :: rest2) = _
  simp only [processLinesF, hp, if_neg hs, if_neg (not_le.mpr htok),
    if_neg (not_lt.mpr hlen)]
  rw [processLinesF_congr idx (rest2.length + 1) (rest2.drop n.toNat).length
        (rest2.drop n.toNat) (by simp only [List.length_drop]; omega) le_rfl]
  rfl

/-! ## Block-level behaviour -/

theorem process_file_block (idx : List Nat) (b : Block) (hb : wfBlock idx b)
    (rest : List Line) :
    process_file idx (encodeBlock b ++ rest) =
      ⟨blockOut idx b ++ (process_file idx rest).out,
       (process_file idx rest).blocks + 1,
       (process_file idx rest).warns⟩ := by
  obtain ⟨h1, h2, h3⟩ := hb
  have henc : encodeBlock b ++ rest
      = b.countLine :: b.metaLine :: (b.atoms ++ rest) := by
    simp [encodeBlock]
  rw [henc,
    process_file_emit idx b.countLine b.metaLine (b.atoms ++ rest)
      (b.atoms.length : Int) h1 h2 h3
      (by simp only [Int.toNat_ofNat, List.length_append]; omega)]
  simp only [Int.toNat_ofNat, List.take_left, List.drop_left, blockOut,
    List.cons_append]

theorem process_file_blocks (idx : List Nat) (bs : List Block)
    (hwf : ∀ b ∈ bs, wfBlock idx b) (tail : List Line) :
    process_file idx (encodeBlocks bs ++ tail) =
      ⟨emitOut idx bs ++ (process_file idx tail).out,
       bs.length + (process_file idx tail).blocks,
       (process_file idx tail).warns⟩ := by
  induction bs with
  | nil => simp [encodeBlocks, emitOut]
  | cons b bs ih =>
    have hb : wfBlock idx b := hwf b (List.mem_cons_self b bs)
    have hwf' : ∀ x ∈ bs, wfBlock idx x := fun x hx =>
      hwf x (List.mem_cons_of_mem b hx)
    have henc : encodeBlocks (b :: bs) ++ tail
        = encodeBlock b ++ (encodeBlocks bs ++ tail) := by
      simp [encodeBlocks]
    rw [henc, process_file_block idx b hb, ih hwf']
    simp only [emitOut, List.map_cons, List.flatten_cons, List.append_assoc,
      List.length_cons, PResult.mk.injEq, and_true, true_and]
    omega


/-! ## Claims about the block loop -/

/-- C1 (amended): for every block emitted by `process_file`, the output
consists of the parsed integer `n` on its own line, one synthesized
header line, then exactly `max(n, 0)` atom lines — equal to `n`
whenever `n` is non-negative — each equal to the corresponding input
line and each followed by a newline terminator.  (The original claim
said "exactly `n` atom lines" for every emitted block; a block whose
count line parses to a negative integer is emitted with zero atom
lines, see `claim1_counterexample`.) -/
theorem claim1 (idx : List Nat) (cnt meta : Line) (rest : List Line) (n : Int)
    (h1 : pyStrip cnt ≠ []) (h2 : pyIntParse (pyStrip cnt) = some n)
    (h3 : maxIdx idx < (pySplitWs (pyStrip meta)).length)
    (h4 : n.toNat ≤ rest.length) :
    process_file idx (cnt :: meta :: rest) =
      ⟨intToLine n ::
         mkHeader (idx.map (fun i => (pySplitWs (pyStrip meta)).getD i [])) ::
         (rest.take n.toNat ++ (process_file idx (rest.drop n.toNat)).out),
       (process_file idx (rest.drop n.toNat)).blocks + 1,
       (process_file idx (rest.drop n.toNat)).warns⟩ ∧
    (rest.take n.toNat).length = n.toNat ∧
    contentOf (process_file idx (cnt :: meta :: rest)) =
      (intToLine n ++ ['\n']) ++
      (mkHeader (idx.map (fun i => (pySplitWs (pyStrip meta)).getD i [])) ++
        ['\n']) ++
      ((rest.take n.toNat).map (fun a => a ++ ['\n'])).flatten ++
      contentOf (process_file idx (rest.drop n.toNat)) := by
  have he := process_file_emit idx cnt meta rest n h1 h2 h3 h4
  refine ⟨he, ?_, ?_⟩
  · rw [List.length_take]
    exact Nat.min_eq_left h4
  · rw [he]
    simp [contentOf, List.append_assoc]

/-- C1 witness: a two-atom block is emitted as count line, header, and
exactly its two atom lines, each newline terminated. -/
theorem claim1_witness :
    process_file METADATA_INDICES
        ["2".toList, meta35, "A 1".toList, "B 2".toList] =
      ⟨["2".toList, header35, "A 1".toList, "B 2".toList], 1, []⟩ ∧
    procContent ["2".toList, meta35, "A 1".toList, "B 2".toList] =
      "2\n".toList ++ header35 ++ "\n".toList ++ "A 1\nB 2\n".toList := by
  have h := claim1 METADATA_INDICES "2".toList meta35
    ["A 1".toList, "B 2".toList] 2 (by decide) (by decide) (by decide)
    (by decide)
  exact ⟨h.1.trans (by decide), h.2.2.trans (by decide)⟩

/-- C1 counterexample: on the input `["-5", meta35]` the loop emits a
block (block count 1) whose output is just the count line `"-5"` and the
header — two lines, hence zero atom lines, not `n = -5` of them. -/
theorem claim1_counterexample :
    (process_file METADATA_INDICES ["-5".toList, meta35]).blocks = 1 ∧
    (process_file METADATA_INDICES ["-5".toList, meta35]).out.length = 2 ∧
    (process_file METADATA_INDICES ["-5".toList, meta35]).out.getD 0 [] =
      "-5".toList ∧
    pyIntParse (pyStrip "-5".toList) = some (-5) := by decide

/-- C2: a block whose metadata line has exactly `maxIdx idx` tokens (one
short) is skipped with a warning — exactly `n` following lines are
consumed and nothing is emitted for the block, processing continuing
behind them — while a block with exactly `maxIdx idx + 1` tokens is
accepted and emitted. -/
theorem claim2 (idx : List Nat) (cnt meta : Line) (rest : List Line) (n : Nat)
    (h1 : pyStrip cnt ≠ [])
    (h2 : pyIntParse (pyStrip cnt) = some (n : Int)) :
    ((pySplitWs (pyStrip meta)).length = maxIdx idx →
      process_file idx (cnt :: meta :: rest) =
        ⟨(process_file idx (rest.drop n)).out,
         (process_file idx (rest.drop n)).blocks,
         Warn.shortMeta (maxIdx idx) ::
           (process_file idx (rest.drop n)).warns⟩) ∧
    ((pySplitWs (pyStrip meta)).length = maxIdx idx + 1 → n ≤ rest.length →
      process_file idx (cnt :: meta :: rest) =
        ⟨intToLine (n : Int) ::
           mkHeader (idx.map (fun i => (pySplitWs (pyStrip meta)).getD i [])) ::
           (rest.take n ++ (process_file idx (rest.drop n)).out),
         (process_file idx (rest.drop n)).blocks + 1,
         (process_file idx (rest.drop n)).warns⟩) := by
  constructor
  · intro ht
    have h := process_file_shortMeta idx cnt meta rest (n : Int) h1 h2
      (le_of_eq ht)
    simpa [ht, Int.toNat_ofNat] using h
  · intro ht hn
    have h := process_file_emit idx cnt meta rest (n : Int) h1 h2 (by omega)
      (by simpa [Int.toNat_ofNat] using hn)
    simpa [Int.toNat_ofNat] using h

/-- C2 witness: with configured indices `[2]` (maximum index 2), a
metadata line with 2 tokens is skipped with a warning and its one atom
line consumed, while a line with 3 tokens is accepted and its block
emitted. -/
theorem claim2_witness :
    process_file [2] ["1".toList, "a b".toList, "X".toList] =
      ⟨[], 0, [Warn.shortMeta 2]⟩ ∧
    process_file [2] ["1".toList, "a b c".toList, "X".toList] =
      ⟨["1".toList, "meta:c Properties=species:S:1:pos:R:3".toList,
        "X".toList], 1, []⟩ := by
  refine ⟨?_, ?_⟩
  · exact ((claim2 [2] "1".toList "a b".toList ["X".toList] 1 (by decide)
      (by decide)).1 (by decide)).trans (by decide)
  · exact ((claim2 [2] "1".toList "a b c".toList ["X".toList] 1 (by decide)
      (by decide)).2 (by decide) (by decide)).trans (by decide)

/-- C3 (amended): in the scanning state, every non-blank line that does
not parse as a Python integer (for example `"abc"`) is logged with a
warning and scanning continues without aborting the file, so a valid
block that follows is still processed and emitted; a negative integer
literal, however, parses as an integer and is accepted as a block count
without any warning (see `claim3_counterexample`). -/
theorem claim3 (idx : List Nat) (first : Line) (rest : List Line)
    (h1 : pyStrip first ≠ []) (h2 : pyIntParse (pyStrip first) = none) :
    process_file idx (first :: rest) =
      ⟨(process_file idx rest).out, (process_file idx rest).blocks,
       Warn.badCount (pyStrip first) :: (process_file idx rest).warns⟩ ∧
    process_file METADATA_INDICES ["-1".toList, meta35] =
      ⟨["-1".toList, header35], 1, []⟩ := by
  exact ⟨process_file_badCount idx first rest h1 h2, by decide⟩

/-- C3 witness: the file `["abc", "1", meta35, "C 0 0 0"]` logs the
malformed count line `"abc"` and still emits the valid block behind
it. -/
theorem claim3_witness :
    process_file METADATA_INDICES
        ["abc".toList, "1".toList, meta35, "C 0 0 0".toList] =
      ⟨["1".toList, header35, "C 0 0 0".toList], 1,
       [Warn.badCount "abc".toList]⟩ ∧
    process_file METADATA_INDICES ["-1".toList, meta35] =
      ⟨["-1".toList, header35], 1, []⟩ := by
  have h := claim3 METADATA_INDICES "abc".toList
    ["1".toList, meta35, "C 0 0 0".toList] (by decide) (by decide)
  exact ⟨h.1.trans (by decide), h.2⟩

/-- C3 counterexample: `"-1"` is non-blank and is not a non-negative
integer, yet `process_file` logs no warning for it — the line parses as
the integer `-1` and its block is emitted. -/
theorem claim3_counterexample :
    pyStrip "-1".toList ≠ [] ∧
    pyIntParse (pyStrip "-1".toList) = some (-1) ∧ (-1 : Int) < 0 ∧
    (process_file METADATA_INDICES ["-1".toList, meta35]).warns = [] ∧
    (process_file METADATA_INDICES ["-1".toList, meta35]).blocks = 1 := by
  decide

/-- C4: if end-of-stream is reached while reading the metadata line, or
before the `n` atom lines of a block have been read, nothing is emitted
for the partial block, processing of the file stops, and all blocks
emitted before that point remain unchanged in the output (the loop
returns normally; no exception escapes it). -/
theorem claim4 (idx : List Nat) (bs : List Block)
    (hwf : ∀ b ∈ bs, wfBlock idx b) :
    (∀ (cnt : Line) (n : Int), pyStrip cnt ≠ [] →
        pyIntParse (pyStrip cnt) = some n →
        process_file idx (encodeBlocks bs ++ [cnt]) =
          ⟨emitOut idx bs, bs.length, [Warn.eofMeta]⟩) ∧
    (∀ (cnt meta : Line) (atoms : List Line) (n : Int),
        pyStrip cnt ≠ [] → pyIntParse (pyStrip cnt) = some n →
        maxIdx idx < (pySplitWs (pyStrip meta)).length →
        atoms.length < n.toNat →
        process_file idx (encodeBlocks bs ++ (cnt :: meta :: atoms)) =
          ⟨emitOut idx bs, bs.length, [Warn.eofAtoms]⟩) := by
  constructor
  · intro cnt n h1 h2
    rw [process_file_blocks idx bs hwf [cnt],
      process_file_eofMeta idx cnt n h1 h2]
    simp
  · intro cnt meta atoms n h1 h2 h3 h4
    rw [process_file_blocks idx bs hwf (cnt :: meta :: atoms),
      process_file_eofAtoms idx cnt meta atoms n h1 h2 h3 h4]
    simp

/-- C4 witness: after one complete block, a trailing lone count line,
or a truncated block with too few atom lines, is discarded while the
earlier block's output is kept. -/
theorem claim4_witness :
    process_file METADATA_INDICES (encodeBlocks [blockW] ++ ["7".toList]) =
      ⟨["1".toList, header35, "C 0 0 0".toList], 1, [Warn.eofMeta]⟩ ∧
    process_file METADATA_INDICES
        (encodeBlocks [blockW] ++ ["2".toList, meta35, "X".toList]) =
      ⟨["1".toList, header35, "C 0 0 0".toList], 1, [Warn.eofAtoms]⟩ := by
  have h := claim4 METADATA_INDICES [blockW] (by decide)
  exact ⟨(h.1 "7".toList 7 (by decide) (by decide)).trans (by decide),
    (h.2 "2".toList meta35 ["X".toList] 2 (by decide) (by decide) (by decide)
      (by decide)).trans (by decide)⟩

/-- C5: on a well-formed input — every block with a valid count line,
enough metadata tokens, and exactly `n` atom lines — the number of
blocks written equals the number of blocks in the input (and the output
is exactly the per-block reformatting, with no warnings). -/
theorem claim5 (idx : List Nat) (bs : List Block)
    (hwf : ∀ b ∈ bs, wfBlock idx b) :
    process_file idx (encodeBlocks bs) = ⟨emitOut idx bs, bs.length, []⟩ := by
  have h := process_file_blocks idx bs hwf []
  simpa [process_file_nil] using h

/-- C5 witness: a two-block well-formed file yields exactly two output
blocks. -/
theorem claim5_witness :
    process_file METADATA_INDICES (encodeBlocks [blockW, blockW]) =
      ⟨["1".toList, header35, "C 0 0 0".toList,
        "1".toList, header35, "C 0 0 0".toList], 2, []⟩ := by
  exact (claim5 METADATA_INDICES [blockW, blockW] (by decide)).trans
    (by decide)

/-- C7: on the five-line input of the scenario, with selected metadata
indices `[16, 18]` (both in range of the 19-token metadata line), the
reformatter emits one block whose header contains the tokens at
positions 16 and 18 (via the fallback `meta:` labelling, the ten-value
template being inapplicable to two values) and whose 3 atom lines are
preserved unchanged. -/
theorem claim7 :
    process_file [16, 18]
      ["3".toList,
       "0 1 2 3 4 5 6 7 8 9 10 11 12 13 14 15 16 17 18".toList,
       "C 0 0 0".toList, "H 1 0 0".toList, "H 0 1 0".toList] =
    ⟨["3".toList,
      "meta:16 meta:18 Properties=species:S:1:pos:R:3".toList,
      "C 0 0 0".toList, "H 1 0 0".toList, "H 0 1 0".toList], 1, []⟩ := by
  decide

/-- C8: `process_file` catches every exception of its body — an I/O
failure opening or reading a file yields the logged `fatal` outcome, a
value, never a propagated exception — and `process_directory` processes
each entry independently, so the entries after a failing file are still
processed, with the same results they would get on their own. -/
theorem claim8 (idx : List Nat) (script : Line) (patterns : List Line)
    (pre post : List DirEntry) (bad : DirEntry) :
    process_directory idx script patterns (pre ++ bad :: post) =
      process_directory idx script patterns pre ++
        (if shouldProcess script patterns bad then
          some (process_file_run idx bad.content)
        else none) :: process_directory idx script patterns post ∧
    (∀ m : Line, process_file_run idx (Except.error m) =
      FileResult.fatal m) := by
  exact ⟨by simp [process_directory], fun m => rfl⟩

/-- C9: a blank (or whitespace-only) line immediately after a valid
count line is taken as the metadata line — yielding zero tokens, hence
the token-shortage branch: a warning, exactly `n` following lines
consumed, nothing emitted for the block — rather than being skipped in
search of a later metadata line. -/
theorem claim9 (idx : List Nat) (cnt blank : Line) (rest : List Line) (n : Nat)
    (h1 : pyStrip cnt ≠ [])
    (h2 : pyIntParse (pyStrip cnt) = some (n : Int))
    (hb : pyStrip blank = []) :
    process_file idx (cnt :: blank :: rest) =
      ⟨(process_file idx (rest.drop n)).out,
       (process_file idx (rest.drop n)).blocks,
       Warn.shortMeta 0 :: (process_file idx (rest.drop n)).warns⟩ := by
  have htok : (pySplitWs (pyStrip blank)).length ≤ maxIdx idx := by
    rw [hb]
    exact Nat.zero_le _
  have h := process_file_shortMeta idx cnt blank rest (n : Int) h1 h2 htok
  simpa [hb, pySplitWs, pySplitWsAux, Int.toNat_ofNat] using h

/-- C9 witness: a count line `"2"` followed by a whitespace-only line
consumes the two lines after it and emits nothing. -/
theorem claim9_witness :
    process_file METADATA_INDICES
        ["2".toList, "  ".toList, "x".toList, "y".toList] =
      ⟨[], 0, [Warn.shortMeta 0]⟩ := by
  exact (claim9 METADATA_INDICES "2".toList "  ".toList
    ["x".toList, "y".toList] 2 (by decide) (by decide) (by decide)).trans
    (by decide)

/-! ## Splitting lemmas for filename derivation -/

theorem pySplitChar_ne_nil (sep : Char) (l : Line) : pySplitChar sep l ≠ [] := by
  cases l with
  | nil => simp [pySplitChar]
  | cons c cs =>
    simp only [pySplitChar]
    cases h : pySplitChar sep cs with
    | nil => simp
    | cons s rest => by_cases hc : c = sep <;> simp [hc]

theorem pySplitChar_of_not_mem (sep : Char) (l : Line) (h : sep ∉ l) :
    pySplitChar sep l = [l] := by
  induction l with
  | nil => rfl
  | cons c cs ih =>
    have hc : ¬(c = sep) := by
      intro e
      exact h (by simp [e])
    have hcs : sep ∉ cs := fun hm => h (List.mem_cons_of_mem c hm)
    simp [pySplitChar, ih hcs, hc]

theorem pySplitChar_append (sep : Char) (x y : Line) :
    pySplitChar sep (x ++ sep :: y) =
      pySplitChar sep x ++ pySplitChar sep y := by
  induction x with
  | nil =>
    cases h : pySplitChar sep y with
    | nil => exact absurd h (pySplitChar_ne_nil sep y)
    | cons s rest => simp [pySplitChar, h]
  | cons c x ih =>
    cases hx : pySplitChar sep x with
    | nil => exact absurd hx (pySplitChar_ne_nil sep x)
    | cons s rest => by_cases hc : c = sep <;> simp [pySplitChar, ih, hx, hc]

theorem joinChar_pySplitChar (sep : Char) (l : Line) :
    joinChar sep (pySplitChar sep l) = l := by
  induction l with
  | nil => rfl
  | cons c cs ih =>
    cases h : pySplitChar sep cs with
    | nil => exact absurd h (pySplitChar_ne_nil _ _)
    | cons s rest =>
      rw [h] at ih
      by_cases hc : c = sep
      · subst hc
        simp only [pySplitChar, h, if_pos]
        simpa [joinChar] using ih
      · simp only [pySplitChar, h, if_neg hc]
        cases rest with
        | nil =>
          simp only [joinChar] at ih ⊢
          simp [ih]
        | cons r rs =>
          simp only [joinChar, List.cons_append] at ih ⊢
          simp [ih]

theorem joinDot_pySplitChar (l : Line) : joinDot (pySplitChar '.' l) = l :=
  joinChar_pySplitChar '.' l

theorem joinSp_pySplitChar (l : Line) : joinSp (pySplitChar ' ' l) = l :=
  joinChar_pySplitChar ' ' l

theorem splitLastDot_of_not_mem (l : Line) (h : '.' ∉ l) :
    splitLastDot l = none := by
  induction l with
  | nil => rfl
  | cons c cs ih =>
    have hc : ¬(c = '.') := by
      intro e
      exact h (by simp [e])
    have hcs : '.' ∉ cs := fun hm => h (List.mem_cons_of_mem c hm)
    simp [splitLastDot, ih hcs, hc]

theorem splitLastDot_append (a b : Line) (h : '.' ∉ b) :
    splitLastDot (a ++ '.' :: b) = some (a, b) := by
  induction a with
  | nil => simp [splitLastDot, splitLastDot_of_not_mem b h]
  | cons c a ih => simp [splitLastDot, ih]

/-- Branch computation of `make_output_name` for names with at least two
dots (`pre` may itself contain further dots): the `_reformat` suffix
lands on the second-to-last dot-delimited segment. -/
theorem make_output_name_multi (pre mid suf : Line)
    (hm : '.' ∉ mid) (hs : '.' ∉ suf) :
    make_output_name (pre ++ '.' :: (mid ++ '.' :: suf)) =
      pre ++ '.' :: (mid ++ "_reformat.".toList ++ suf) := by
  have hsplit : pySplitChar '.' (pre ++ '.' :: (mid ++ '.' :: suf))
      = pySplitChar '.' pre ++ ([mid] ++ [suf]) := by
    rw [pySplitChar_append, pySplitChar_append,
      pySplitChar_of_not_mem _ _ hm, pySplitChar_of_not_mem _ _ hs]
  have hsp : pySplitChar '.' pre ≠ [] := pySplitChar_ne_nil '.' pre
  have hlen : 3 ≤ (pySplitChar '.' pre ++ ([mid] ++ [suf])).length := by
    have := List.length_pos.mpr hsp
    simp only [List.length_append, List.length_cons, List.length_nil]
    omega
  have hassoc : pySplitChar '.' pre ++ ([mid] ++ [suf])
      = (pySplitChar '.' pre ++ [mid]) ++ [suf] := by
    rw [List.append_assoc]
  have hd : ((pySplitChar '.' pre ++ ([mid] ++ [suf])).dropLast).dropLast
      = pySplitChar '.' pre := by
    rw [hassoc, List.dropLast_concat, List.dropLast_concat]
  have hr : (pySplitChar '.' pre ++ ([mid] ++ [suf])).reverse
      = suf :: mid :: (pySplitChar '.' pre).reverse := by
    simp
  rw [make_output_name, hsplit, if_pos hlen, hd, hr, joinDot_pySplitChar]
  simp

/-- Branch computation of `make_output_name` for `stem.ext` names. -/
theorem make_output_name_two (s e : Line)
    (hs1 : '.' ∉ s) (he1 : '.' ∉ e) (hs0 : s ≠ []) (he0 : e ≠ []) :
    make_output_name (s ++ '.' :: e) =
      s ++ "_reformat".toList ++ '.' :: e := by
  have hsplit2 : pySplitChar '.' (s ++ '.' :: e) = [s] ++ [e] := by
    rw [pySplitChar_append, pySplitChar_of_not_mem _ _ hs1,
      pySplitChar_of_not_mem _ _ he1]
  have hld := splitLastDot_append s e he1
  rw [make_output_name, hsplit2]
  rw [if_neg (by simp)]
  simp [pyStem, pySuffix, hld, hs0, he0]

/-- Branch computation of `make_output_name` for dot-free names. -/
theorem make_output_name_plain (t : Line) (ht : '.' ∉ t) :
    make_output_name t = t ++ "_reformat".toList := by
  have hsplit3 : pySplitChar '.' t = [t] := pySplitChar_of_not_mem _ _ ht
  have hld := splitLastDot_of_not_mem t ht
  rw [make_output_name, hsplit3]
  rw [if_neg (by simp)]
  simp [pyStem, pySuffix, hld]

/-- C6 (amended): `make_output_name` is a pure, deterministic function of
the input name; when the name has at least two separator-delimited
segments before the final extension the suffix `_reformat` is appended
to the second-to-last segment, and otherwise it is appended to the base
name before the (possibly empty) extension.  It is, however, not
injective on all names: `"a._reformat"` and `"a_reformat."` both map to
`"a_reformat._reformat"` (`claim6_counterexample`). -/
theorem claim6 (pre mid suf s e t : Line)
    (hm : '.' ∉ mid) (hs : '.' ∉ suf)
    (hs1 : '.' ∉ s) (he1 : '.' ∉ e) (hs0 : s ≠ []) (he0 : e ≠ [])
    (ht : '.' ∉ t) :
    make_output_name (pre ++ '.' :: (mid ++ '.' :: suf)) =
      pre ++ '.' :: (mid ++ "_reformat.".toList ++ suf) ∧
    make_output_name (s ++ '.' :: e) =
      s ++ "_reformat".toList ++ '.' :: e ∧
    make_output_name t = t ++ "_reformat".toList :=
  ⟨make_output_name_multi pre mid suf hm hs,
   make_output_name_two s e hs1 he1 hs0 he0,
   make_output_name_plain t ht⟩

/-- C6 witness: the three shapes at concrete names — a name with extra
dots in its leading part, a plain `stem.ext` name, and a dot-free
name. -/
theorem claim6_witness :
    make_output_name "x.y.b.xyz".toList = "x.y.b_reformat.xyz".toList ∧
    make_output_name "n.ext".toList = "n_reformat.ext".toList ∧
    make_output_name "plain".toList = "plain_reformat".toList := by
  have h := claim6 "x.y".toList "b".toList "xyz".toList "n".toList
    "ext".toList "plain".toList (by decide) (by decide) (by decide)
    (by decide) (by decide) (by decide) (by decide)
  exact ⟨h.1.trans (by decide), h.2.1.trans (by decide), h.2.2.trans (by decide)⟩

/-- C6 counterexample: two distinct file names in the same directory
whose derived output names coincide, so the derivation is not
collision-free. -/
theorem claim6_counterexample :
    make_output_name "a._reformat".toList =
      make_output_name "a_reformat.".toList ∧
    "a._reformat".toList ≠ "a_reformat.".toList ∧
    make_output_name "a._reformat".toList =
      "a_reformat._reformat".toList := by
  decide

/-! ## Whitespace and stripping lemmas -/

theorem head_dropWhile_not {p : Char → Bool} :
    ∀ (l : Line) {c : Char}, (l.dropWhile p).head? = some c → p c = false := by
  intro l
  induction l with
  | nil => intro c h; simp [List.dropWhile] at h
  | cons a as ih =>
    intro c h
    rw [List.dropWhile_cons] at h
    by_cases ha : p a
    · rw [if_pos ha] at h
      exact ih h
    · rw [if_neg ha] at h
      simp only [List.head?_cons, Option.some.injEq] at h
      rw [← h]
      simpa using ha

theorem dropWhile_eq_self {p : Char → Bool} {l : Line}
    (h : ∀ c, l.head? = some c → p c = false) : l.dropWhile p = l := by
  cases l with
  | nil => rfl
  | cons a as =>
    rw [List.dropWhile_cons, if_neg]
    simp [h a rfl]

theorem getLast?_dropWhile {p : Char → Bool} :
    ∀ (l : Line), l.dropWhile p ≠ [] →
      (l.dropWhile p).getLast? = l.getLast? := by
  intro l
  induction l with
  | nil => intro h; simp [List.dropWhile] at h
  | cons a as ih =>
    intro h
    rw [List.dropWhile_cons] at h ⊢
    by_cases ha : p a
    · rw [if_pos ha] at h ⊢
      cases as with
      | nil => simp [List.dropWhile] at h
      | cons b t =>
        rw [ih h, List.getLast?_cons_cons]
    · rw [if_neg ha]

theorem pyStrip_idem (l : Line) : pyStrip (pyStrip l) = pyStrip l := by
  unfold pyStrip
  cases hB : (l.dropWhile isPyWs).reverse.dropWhile isPyWs with
  | nil => simp
  | cons b bs =>
    have hBne : (l.dropWhile isPyWs).reverse.dropWhile isPyWs ≠ [] := by
      rw [hB]; exact List.cons_ne_nil b bs
    -- head of the outer dropWhile result is not whitespace
    have hheadB : isPyWs b = false := by
      apply head_dropWhile_not (l.dropWhile isPyWs).reverse
      rw [hB]; rfl
    -- the last of the outer dropWhile result is the head of the inner one
    have hlast : (b :: bs).getLast? = (l.dropWhile isPyWs).head? := by
      rw [← hB, getLast?_dropWhile _ hBne, List.getLast?_reverse]
    have hlastw : ∀ c, (b :: bs).getLast? = some c → isPyWs c = false := by
      intro c hc
      rw [hlast] at hc
      exact head_dropWhile_not l hc
    -- stripping the already-stripped list changes nothing
    have h1 : (b :: bs).reverse.dropWhile isPyWs = (b :: bs).reverse := by
      apply dropWhile_eq_self
      intro c hc
      rw [List.head?_reverse] at hc
      exact hlastw c hc
    rw [h1, List.reverse_reverse]
    have h2 : (b :: bs).dropWhile isPyWs = b :: bs := by
      apply dropWhile_eq_self
      intro c hc
      simp only [List.head?_cons, Option.some.injEq] at hc
      rw [← hc]; exact hheadB
    rw [h2]

theorem dropWhile_append_nil {p : Char → Bool} {l₁ : Line} (l₂ : Line)
    (h : l₁.dropWhile p = []) :
    (l₁ ++ l₂).dropWhile p = l₂.dropWhile p := by
  induction l₁ with
  | nil => rfl
  | cons a as ih =>
    rw [List.dropWhile_cons] at h
    by_cases pa : p a
    · rw [if_pos pa] at h
      rw [List.cons_append, List.dropWhile_cons, if_pos pa]
      exact ih h
    · rw [if_neg pa] at h
      exact absurd h (List.cons_ne_nil a as)

theorem dropWhile_append_cons {p : Char → Bool} {l₁ : Line} (l₂ : Line)
    {a : Char} {as : Line} (h : l₁.dropWhile p = a :: as) :
    (l₁ ++ l₂).dropWhile p = a :: (as ++ l₂) := by
  induction l₁ with
  | nil => simp [List.dropWhile] at h
  | cons b bs ih =>
    rw [List.dropWhile_cons] at h
    by_cases pb : p b
    · rw [if_pos pb] at h
      rw [List.cons_append, List.dropWhile_cons, if_pos pb]
      exact ih h
    · rw [if_neg pb] at h
      obtain ⟨rfl, rfl⟩ : b = a ∧ bs = as := by
        constructor <;> [exact (List.cons.injEq .. ▸ h).1;
          exact (List.cons.injEq .. ▸ h).2]
      rw [List.cons_append, List.dropWhile_cons, if_neg pb]

theorem pyStrip_append_ws (l : Line) (c : Char) (hc : isPyWs c = true) :
    pyStrip (l ++ [c]) = pyStrip l := by
  unfold pyStrip
  cases hA : l.dropWhile isPyWs with
  | nil =>
    rw [dropWhile_append_nil [c] hA]
    simp [List.dropWhile, hc]
  | cons a as =>
    rw [dropWhile_append_cons [c] hA]
    have hrev : (a :: (as ++ [c])).reverse = c :: (a :: as).reverse := by
      simp
    rw [hrev, List.dropWhile_cons, if_pos hc]

theorem pyIntParse_pyStrip (l : Line) :
    pyIntParse (pyStrip l) = pyIntParse l := by
  unfold pyIntParse
  rw [pyStrip_idem]

theorem pyIntParse_append_nl (l : Line) :
    pyIntParse (l ++ ['\n']) = pyIntParse l := by
  unfold pyIntParse
  rw [pyStrip_append_ws l '\n' (by decide)]

/-! ## Round-trip lemmas for token splitting -/

theorem joinChar_cons (sep : Char) (t : Line) (l : List Line) (h : l ≠ []) :
    joinChar sep (t :: l) = t ++ sep :: joinChar sep l := by
  cases l with
  | nil => exact absurd rfl h
  | cons x xs => rfl

theorem pySplitWsAux_allWs :
    ∀ (t : Line), (∀ c ∈ t, isPyWs c = true) → ∀ acc,
      pySplitWsAux acc t = if acc = [] then [] else [acc.reverse] := by
  intro t
  induction t with
  | nil => intro _ acc; rfl
  | cons c cs ih =>
    intro h acc
    have hc : isPyWs c = true := h c (List.mem_cons_self c cs)
    have hcs : ∀ x ∈ cs, isPyWs x = true := fun x hx =>
      h x (List.mem_cons_of_mem c hx)
    by_cases hacc : acc = [] <;>
      simp [pySplitWsAux, hc, hacc, ih hcs []]

theorem pySplitWsAux_append_allWs :
    ∀ (m t : Line), (∀ c ∈ t, isPyWs c = true) → ∀ acc,
      pySplitWsAux acc (m ++ t) = pySplitWsAux acc m := by
  intro m
  induction m with
  | nil =>
    intro t ht acc
    rw [List.nil_append, pySplitWsAux_allWs t ht acc]
    rfl
  | cons c cs ih =>
    intro t ht acc
    by_cases hc : isPyWs c
    · by_cases hacc : acc = [] <;>
        simp [pySplitWsAux, hc, hacc, ih t ht]
    · simp [pySplitWsAux, hc, ih t ht]

theorem pySplitWs_dropWhile (l : Line) :
    pySplitWs (l.dropWhile isPyWs) = pySplitWs l := by
  unfold pySplitWs
  induction l with
  | nil => rfl
  | cons c cs ih =>
    rw [List.dropWhile_cons]
    by_cases hc : isPyWs c
    · rw [if_pos hc, ih]
      simp [pySplitWsAux, hc]
    · rw [if_neg hc]

theorem pySplitWs_strip (l : Line) : pySplitWs (pyStrip l) = pySplitWs l := by
  have hA : ((l.dropWhile isPyWs).reverse.dropWhile isPyWs).reverse ++
      ((l.dropWhile isPyWs).reverse.takeWhile isPyWs).reverse
      = l.dropWhile isPyWs := by
    rw [← List.reverse_append, List.takeWhile_append_dropWhile,
      List.reverse_reverse]
  have hws : ∀ c ∈ ((l.dropWhile isPyWs).reverse.takeWhile isPyWs).reverse,
      isPyWs c = true := by
    intro c hcm
    rw [List.mem_reverse] at hcm
    exact List.mem_takeWhile_imp hcm
  have h1 : pySplitWs
      (((l.dropWhile isPyWs).reverse.dropWhile isPyWs).reverse ++
        ((l.dropWhile isPyWs).reverse.takeWhile isPyWs).reverse) =
      pySplitWs (((l.dropWhile isPyWs).reverse.dropWhile isPyWs).reverse) :=
    pySplitWsAux_append_allWs _ _ hws []
  calc pySplitWs (pyStrip l)
      = pySplitWs
          (((l.dropWhile isPyWs).reverse.dropWhile isPyWs).reverse) := rfl
    _ = pySplitWs
          (((l.dropWhile isPyWs).reverse.dropWhile isPyWs).reverse ++
            ((l.dropWhile isPyWs).reverse.takeWhile isPyWs).reverse) :=
        h1.symm
    _ = pySplitWs (l.dropWhile isPyWs) := by rw [hA]
    _ = pySplitWs l := pySplitWs_dropWhile l

theorem pySplitWsAux_token (tok : Line)
    (htok : ∀ c ∈ tok, isPyWs c = false) :
    ∀ acc rest, pySplitWsAux acc (tok ++ rest) =
      pySplitWsAux (tok.reverse ++ acc) rest := by
  induction tok with
  | nil => intro acc rest; simp
  | cons c cs ih =>
    intro acc rest
    have hc : isPyWs c = false := htok c (List.mem_cons_self c cs)
    have hcs : ∀ x ∈ cs, isPyWs x = false := fun x hx =>
      htok x (List.mem_cons_of_mem c hx)
    simp only [List.cons_append, pySplitWsAux, hc, Bool.false_eq_true,
      if_false, List.append_eq]
    rw [ih hcs (c :: acc) rest]
    simp [List.append_assoc]

theorem pySplitWs_joinSp (ts : List Line)
    (h : ∀ t ∈ ts, t ≠ [] ∧ ∀ c ∈ t, isPyWs c = false) :
    pySplitWs (joinSp ts) = ts := by
  induction ts with
  | nil => rfl
  | cons t ts' ih =>
    obtain ⟨ht0, htw⟩ := h t (List.mem_cons_self t ts')
    have h' := fun x hx => h x (List.mem_cons_of_mem t hx)
    cases ts' with
    | nil =>
      show pySplitWsAux [] (joinChar ' ' [t]) = [t]
      have hj : joinChar ' ' [t] = t ++ [] := by simp [joinChar]
      rw [hj, pySplitWsAux_token t htw [] []]
      simp [pySplitWsAux, ht0]
    | cons t2 ts'' =>
      have hih := ih h'
      unfold pySplitWs joinSp at hih
      show pySplitWsAux [] (joinChar ' ' (t :: t2 :: ts'')) = t :: t2 :: ts''
      rw [joinChar_cons ' ' t (t2 :: ts'') (List.cons_ne_nil t2 ts''),
        pySplitWsAux_token t htw [] (' ' :: joinChar ' ' (t2 :: ts''))]
      simp [pySplitWsAux, show isPyWs ' ' = true from by decide, ht0, hih]

theorem pySplitChar_joinChar (sep : Char) :
    ∀ (ts : List Line), ts ≠ [] → (∀ t ∈ ts, sep ∉ t) →
      pySplitChar sep (joinChar sep ts) = ts := by
  intro ts
  induction ts with
  | nil => intro h0 _; exact absurd rfl h0
  | cons t ts' ih =>
    intro _ h
    cases ts' with
    | nil => exact pySplitChar_of_not_mem sep t (h t (List.mem_cons_self t []))
    | cons t2 ts'' =>
      rw [joinChar_cons sep t (t2 :: ts'') (List.cons_ne_nil t2 ts''),
        pySplitChar_append,
        pySplitChar_of_not_mem sep t (h t (List.mem_cons_self t _)),
        ih (List.cons_ne_nil t2 ts'')
          (fun x hx => h x (List.mem_cons_of_mem t hx))]
      rfl

theorem pySplitChar_joinSp_nl :
    ∀ (ts : List Line) (last : Line),
      (∀ t ∈ ts ++ [last], ' ' ∉ t) →
      pySplitChar ' ' (joinSp (ts ++ [last]) ++ ['\n']) =
        ts ++ [last ++ ['\n']] := by
  intro ts
  induction ts with
  | nil =>
    intro last h
    have hl : ' ' ∉ last ++ ['\n'] := by
      intro hm
      rcases List.mem_append.mp hm with hm1 | hm2
      · exact h last (by simp) hm1
      · simp at hm2
    show pySplitChar ' ' (joinChar ' ' [last] ++ ['\n']) = [last ++ ['\n']]
    have hj : joinChar ' ' [last] = last := rfl
    rw [hj, pySplitChar_of_not_mem ' ' _ hl]
  | cons t ts' ih =>
    intro last h
    have ht : ' ' ∉ t := h t (by simp)
    have h' : ∀ x ∈ ts' ++ [last], ' ' ∉ x := fun x hx =>
      h x (List.mem_cons_of_mem t hx)
    show pySplitChar ' '
        (joinChar ' ' (t :: (ts' ++ [last])) ++ ['\n']) = _
    rw [joinChar_cons ' ' t (ts' ++ [last]) (by simp),
      List.append_assoc, List.cons_append,
      pySplitChar_append ' ' t, pySplitChar_of_not_mem ' ' t ht]
    rw [show joinChar ' ' (ts' ++ [last]) ++ ['\n']
        = joinSp (ts' ++ [last]) ++ ['\n'] from rfl] at *
    rw [ih last h']
    rfl

/-! ## The crude reformat loop -/

theorem crudeF_congr :
    ∀ (fuel fuel' : Nat) (l : List Line), l.length ≤ fuel →
      l.length ≤ fuel' → crudeF fuel l = crudeF fuel' l := by
  intro fuel
  induction fuel with
  | zero =>
    intro fuel' l h _
    have hl : l = [] := List.length_eq_zero.mp (Nat.le_zero.mp h)
    subst hl
    cases fuel' <;> rfl
  | succ f ih =>
    intro fuel' l h h'
    cases l with
    | nil => cases fuel' <;> rfl
    | cons first rest =>
      cases fuel' with
      | zero => simp at h'
      | succ f' =>
        simp only [crudeF]
        cases hp : pyIntParse (first ++ ['\n']) with
        | none => rfl
        | some n =>
          by_cases hd : 35 ≤ (pySplitChar ' ' (crudeMetaRaw rest)).length
          · simp only [if_pos hd]
            have hlen : (rest.tail.drop n.toNat).length ≤ f := by
              simp only [List.length_drop, List.length_tail]
              simp only [List.length_cons] at h
              omega
            have hlen' : (rest.tail.drop n.toNat).length ≤ f' := by
              simp only [List.length_drop, List.length_tail]
              simp only [List.length_cons] at h'
              omega
            rw [ih f' (rest.tail.drop n.toNat) hlen hlen']
          · simp only [if_neg hd]

theorem crudeContent_step (first meta : Line) (rest2 : List Line) (n : Int)
    (hp : pyIntParse (first ++ ['\n']) = some n)
    (hd : 35 ≤ (pySplitChar ' ' (meta ++ ['\n'])).length) :
    crudeContent (first :: meta :: rest2) =
      intToLine n ++ ['\n'] ++
        (crudeHeader (pySplitChar ' ' (meta ++ ['\n'])) ++ ['\n'] ++
          ((rest2.take n.toNat).map (fun a => a ++ ['\n'])).flatten ++
          crudeContent (rest2.drop n.toNat)) := by
  show crudeF (rest2.length + 1 + 1) (first :: meta :: rest2) = _
  simp only [crudeF, crudeMetaRaw, hp, List.tail_cons, if_pos hd]
  have hcc : crudeF (rest2.length + 1) (rest2.drop n.toNat)
      = crudeContent (rest2.drop n.toNat) := by
    unfold crudeContent
    exact crudeF_congr _ _ _ (by simp only [List.length_drop]; omega)
      (by simp only [List.length_drop]; omega)
  rw [hcc]

/-- For a line that is the single-space join of nonempty whitespace-free
tokens, `meta_line.strip().split()` recovers exactly those tokens. -/
theorem pySplitWs_strip_eq_splitChar (m : Line)
    (h : ∀ t ∈ pySplitChar ' ' m, t ≠ [] ∧ ∀ c ∈ t, isPyWs c = false) :
    pySplitWs (pyStrip m) = pySplitChar ' ' m := by
  rw [pySplitWs_strip]
  conv_lhs => rw [← joinSp_pySplitChar m]
  exact pySplitWs_joinSp _ h

theorem wf10_wfBlock (b : Block) (hb : wf10 b) :
    wfBlock METADATA_INDICES b := by
  obtain ⟨h1, h2, h3, h4⟩ := hb
  refine ⟨h1, h2, ?_⟩
  rw [pySplitWs_strip_eq_splitChar b.metaLine h4]
  have hmax : maxIdx METADATA_INDICES = 34 := by decide
  omega

theorem procContent_block (b : Block) (hb : wfBlock METADATA_INDICES b)
    (rest : List Line) :
    procContent (encodeBlock b ++ rest) =
      ((blockOut METADATA_INDICES b).map (fun a => a ++ ['\n'])).flatten ++
        procContent rest := by
  unfold procContent contentOf
  rw [process_file_block _ b hb rest]
  simp [List.map_append]

theorem crudeContent_block (b : Block) (hb : wf10 b) (rest : List Line) :
    crudeContent (encodeBlock b ++ rest) =
      ((blockOut METADATA_INDICES b).map (fun a => a ++ ['\n'])).flatten ++
        crudeContent rest := by
  obtain ⟨h1, h2, h3, h4⟩ := hb
  obtain ⟨init, last, hts⟩ :
      ∃ init last, pySplitChar ' ' b.metaLine = init ++ [last] := by
    cases hq : pySplitChar ' ' b.metaLine with
    | nil => exact absurd hq (pySplitChar_ne_nil _ _)
    | cons x xs =>
      exact ⟨(x :: xs).dropLast, (x :: xs).getLast (by simp),
        (List.dropLast_concat_getLast (by simp)).symm⟩
  have hmeta : b.metaLine = joinSp (init ++ [last]) := by
    conv_lhs => rw [← joinSp_pySplitChar b.metaLine, hts]
  have hspace : ∀ t ∈ init ++ [last], ' ' ∉ t := by
    intro t htm hsp
    have := ((h4 t (by rw [hts]; exact htm)).2 ' ' hsp)
    simp [isPyWs] at this
  have hdata : pySplitChar ' ' (b.metaLine ++ ['\n'])
      = init ++ [last ++ ['\n']] := by
    conv_lhs => rw [hmeta]
    exact pySplitChar_joinSp_nl init last hspace
  have hleninit : 35 ≤ init.length := by
    rw [hts] at h3
    simp only [List.length_append, List.length_cons, List.length_nil] at h3
    omega
  have hd : 35 ≤ (pySplitChar ' ' (b.metaLine ++ ['\n'])).length := by
    rw [hdata]
    simp only [List.length_append, List.length_cons, List.length_nil]
    omega
  have hp : pyIntParse (b.countLine ++ ['\n'])
      = some (b.atoms.length : Int) := by
    rw [pyIntParse_append_nl, ← pyIntParse_pyStrip]
    exact h2
  have henc : encodeBlock b ++ rest
      = b.countLine :: b.metaLine :: (b.atoms ++ rest) := by
    simp [encodeBlock]
  rw [henc, crudeContent_step b.countLine b.metaLine (b.atoms ++ rest)
    (b.atoms.length : Int) hp hd]
  rw [Int.toNat_ofNat, List.take_left, List.drop_left]
  -- the two synthesized headers coincide
  have htokens : pySplitWs (pyStrip b.metaLine) = init ++ [last] := by
    rw [pySplitWs_strip_eq_splitChar b.metaLine h4, hts]
  have hheader : crudeHeader (pySplitChar ' ' (b.metaLine ++ ['\n']))
      = mkHeader (METADATA_INDICES.map
          (fun i => (pySplitWs (pyStrip b.metaLine)).getD i [])) := by
    rw [hdata, htokens]
    have hlen10 : 10 ≤ (METADATA_INDICES.map
        (fun i => (init ++ [last]).getD i [])).length := by
      simp [METADATA_INDICES]
    rw [mkHeader, if_pos hlen10]
    have hgd : ∀ i ∈ METADATA_INDICES,
        (init ++ [last ++ ['\n']]).getD i [] = (init ++ [last]).getD i [] := by
      intro i him
      have hi34 : i ≤ 34 := by
        have : ∀ j ∈ METADATA_INDICES, j ≤ 34 := by decide
        exact this i him
      rw [List.getD_append _ _ _ _ (by omega),
        List.getD_append _ _ _ _ (by omega)]
    have hmapeq : METADATA_INDICES.map
          (fun i => (init ++ [last ++ ['\n']]).getD i [])
        = METADATA_INDICES.map (fun i => (init ++ [last]).getD i []) :=
      List.map_congr_left hgd
    show crudeHeader (init ++ [last ++ ['\n']]) = _
    have hcrude : crudeHeader (init ++ [last ++ ['\n']])
        = headerFromValues (METADATA_INDICES.map
            (fun i => (init ++ [last ++ ['\n']]).getD i [])) := rfl
    rw [hcrude, hmapeq]
  rw [hheader]
  simp [blockOut, List.append_assoc]

/-- C10: on inputs meeting the refinement preconditions — a file name
with exactly two dots, and content that is a sequence of well-formed
blocks with single-space-separated metadata tokens, at least 36 per
block — the crude `reformat` of the ingest script and `process_file`
write the same output file name and the same contents; outside these
preconditions the two diverge (e.g. `reformat` aborts the whole file on
the first malformed count line, emitting nothing, where `process_file`
skips it and emits the valid block behind it). -/
theorem claim10 :
    (∀ p0 p1 p2 : Line, '.' ∉ p0 → '.' ∉ p1 → '.' ∉ p2 →
      crudeOutName (p0 ++ '.' :: (p1 ++ '.' :: p2)) =
        make_output_name (p0 ++ '.' :: (p1 ++ '.' :: p2))) ∧
    (∀ bs : List Block, (∀ b ∈ bs, wf10 b) →
      crudeContent (encodeBlocks bs) = procContent (encodeBlocks bs)) ∧
    crudeContent ["abc".toList, "1".toList, meta35, "C 0 0 0".toList] ≠
      procContent ["abc".toList, "1".toList, meta35, "C 0 0 0".toList] := by
  refine ⟨?_, ?_, by decide⟩
  · intro p0 p1 p2 h0 h1 h2
    have hsplit : pySplitChar '.' (p0 ++ '.' :: (p1 ++ '.' :: p2))
        = [p0, p1, p2] := by
      rw [pySplitChar_append, pySplitChar_append,
        pySplitChar_of_not_mem _ _ h0, pySplitChar_of_not_mem _ _ h1,
        pySplitChar_of_not_mem _ _ h2]
      rfl
    rw [crudeOutName, hsplit, make_output_name_multi p0 p1 p2 h1 h2]
    simp
  · intro bs
    induction bs with
    | nil => intro _; rfl
    | cons b bs ih =>
      intro hwf
      have hb : wf10 b := hwf b (List.mem_cons_self b bs)
      have hwf' : ∀ x ∈ bs, wf10 x := fun x hx =>
        hwf x (List.mem_cons_of_mem b hx)
      have henc : encodeBlocks (b :: bs) = encodeBlock b ++ encodeBlocks bs := by
        simp [encodeBlocks]
      rw [henc, crudeContent_block b hb, procContent_block b (wf10_wfBlock b hb),
        ih hwf']

/-- C10 witness: the name and content agreement at a concrete file name
with exactly two dots and a concrete one-block file meeting the
precondition. -/
theorem claim10_witness :
    crudeOutName "data.nanci.txt".toList =
      make_output_name "data.nanci.txt".toList ∧
    crudeContent (encodeBlocks [blockV]) = procContent (encodeBlocks [blockV]) := by
  exact ⟨claim10.1 "data".toList "nanci".toList "txt".toList (by decide)
      (by decide) (by decide),
    claim10.2.1 [blockV] (by decide)⟩
